import Mathlib

/-!
Shallow embedding of the VPP dispatch core (`src/vpp.py`) in Lean 4.

Python floats are modelled as rationals (`ℚ`), so arithmetic is exact.
The mutable fleet registry `VPPSystem.ders` (a dict keyed by DER id) is
modelled as a `List DER`; in-place mutation of a `DER` object becomes a
by-id update of the registry list (`mapUnit`), which coincides with the
Python aliasing semantics because dict values are distinct objects with
unique ids.  `asyncio` scheduling is not modelled; the sequential
behaviour of each operation is.
-/

/-- Embeds the `DER` dataclass of `src/vpp.py` (lines 26-35): identifier,
total capacity, available capacity, a free-form status string, location. -/
structure DER where
  id : String
  capacity : ℚ
  available_capacity : ℚ
  status : String
  location : String
deriving DecidableEq

/-- Embeds `DER.can_allocate` (line 34-35): `available_capacity >= requested_amount`. -/
def DER.canAllocate (d : DER) (requested_amount : ℚ) : Bool :=
  requested_amount ≤ d.available_capacity

/-- Embeds the `Event` dataclass (lines 16-24).  `priority` is the numeric
rank of `EventPriority` (the only field with `compare=True`); timestamps are
modelled as naturals. -/
structure Event where
  priority : Nat
  id : String
  timestamp : Nat
  deadline : Nat
  resource_requirement : ℚ
  duration : Nat
  event_type : String
deriving DecidableEq

/-- Comparison used by `sorted(available_ders, key=lambda x: x.available_capacity,
reverse=True)` in `_find_available_resources` (line 138): descending by
available capacity. -/
abbrev availGE (a b : DER) : Prop :=
  b.available_capacity ≤ a.available_capacity

instance : IsTotal DER availGE :=
  ⟨fun a b => le_total b.available_capacity a.available_capacity⟩

instance : IsTrans DER availGE :=
  ⟨fun _ _ _ h1 h2 => le_trans h2 h1⟩

/-- Embeds `VPPSystem._find_available_resources` (lines 122-141): collect the
DERs with positive available capacity together with their total; if the total
covers the requirement return them sorted by available capacity descending
(a stable sort, matching CPython's `sorted`), otherwise return `[]`. -/
def findAvailableResources (ders : List DER) (required_capacity : ℚ) : List DER :=
  let available_ders := ders.filter fun d => 0 < d.available_capacity
  let total_available := (available_ders.map DER.available_capacity).sum
  if required_capacity ≤ total_available then
    List.insertionSort availGE available_ders
  else
    []

/-- Applies an update function to every registry entry whose id is `uid`;
this is how in-place mutation of a shared `DER` object is reflected in the
registry list (ids are unique in `VPPSystem.ders`, a dict keyed by id). -/
def mapUnit (ders : List DER) (uid : String) (f : DER → DER) : List DER :=
  ders.map fun d => if d.id = uid then f d else d

/-- Embeds `der.available_capacity -= allocation` (line 156) as a registry update. -/
def debitUnit (ders : List DER) (uid : String) (amount : ℚ) : List DER :=
  mapUnit ders uid fun d => { d with available_capacity := d.available_capacity - amount }

/-- Embeds the rollback credit `der.available_capacity += amount`
(lines 165 and 176): no clamping. -/
def creditUnit (ders : List DER) (uid : String) (amount : ℚ) : List DER :=
  mapUnit ders uid fun d => { d with available_capacity := d.available_capacity + amount }

/-- Embeds the release credit of `_release_resources` (lines 191-193):
`available_capacity += allocated_amount` followed by
`available_capacity = min(available_capacity, capacity)`. -/
def releaseUnit (ders : List DER) (uid : String) (amount : ℚ) : List DER :=
  mapUnit ders uid fun d =>
    { d with available_capacity := min (d.available_capacity + amount) d.capacity }

/-- Helper used to state what the allocation walk does to the registry:
apply the recorded debits left to right. -/
def debitAll (ders : List DER) (allocations : List (String × ℚ)) : List DER :=
  allocations.foldl (fun reg p => debitUnit reg p.1 p.2) ders

/-- Embeds the `for der in ders` walk of `_allocate_resources` (lines 149-159)
over the candidate snapshot: break once `needed <= 0`; otherwise take
`allocation = min(der.available_capacity, needed)` and, when positive, deduct
it from that unit in the registry, record the `(unit, amount)` pair and lower
`needed`.  Returns the updated registry, the recorded pairs in visit order and
the remaining requirement.  Candidate capacities are read from the snapshot,
which agrees with the live objects because each distinct unit is visited at
most once. -/
def allocLoop (registry : List DER) (needed : ℚ) : List DER → List DER × List (String × ℚ) × ℚ
  | [] => (registry, [], needed)
  | der :: rest =>
    if needed ≤ 0 then
      (registry, [], needed)
    else
      let allocation := min der.available_capacity needed
      if 0 < allocation then
        let res := allocLoop (debitUnit registry der.id allocation) (needed - allocation) rest
        (res.1, (der.id, allocation) :: res.2.1, res.2.2)
      else
        allocLoop registry needed rest

/-- Embeds the rollback loop of `_allocate_resources` (lines 163-166):
`der.available_capacity += amount` for every recorded pair. -/
def rollbackAllocations (registry : List DER) (allocations : List (String × ℚ)) : List DER :=
  allocations.foldl (fun reg p => creditUnit reg p.1 p.2) registry

/-- Embeds `VPPSystem._allocate_resources` (lines 143-178): run the walk with
`needed = event.resource_requirement`; if a positive remainder is left, roll
back every deduction and return `(False, [])`, otherwise return
`(True, allocations)`.  The third component is the resulting registry. -/
def allocateResources (event : Event) (registry : List DER) (ders : List DER) :
    Bool × List (String × ℚ) × List DER :=
  let res := allocLoop registry event.resource_requirement ders
  if 0 < res.2.2 then
    (false, [], rollbackAllocations res.1 res.2.1)
  else
    (true, res.2.1, res.1)

/-- Embeds `VPPSystem._release_resources` (lines 180-196): credit each
recorded amount back to its unit, clamped to the unit's total capacity. -/
def releaseResources (registry : List DER) (allocations : List (String × ℚ)) : List DER :=
  allocations.foldl (fun reg p => releaseUnit reg p.1 p.2) registry

/-- Aggregate available capacity over the units with positive available
capacity, as accumulated by `_find_available_resources` (lines 129-133). -/
def totalAvailableCapacity (ders : List DER) : ℚ :=
  ((ders.filter fun d => 0 < d.available_capacity).map DER.available_capacity).sum

/-- Embeds the allocation phase of `VPPSystem.process_event` (lines 92-102):
`_find_available_resources` followed, when candidates were found, by
`_allocate_resources`.  Returns the success flag, the allocation record and
the resulting registry. -/
def allocate (registry : List DER) (event : Event) : Bool × List (String × ℚ) × List DER :=
  let available_ders := findAvailableResources registry event.resource_requirement
  if available_ders.isEmpty then
    (false, [], registry)
  else
    allocateResources event registry available_ders

/-- Outcome of the execution-simulation step `_execute_event` as seen by
`process_event`: a returned boolean, or an exception escaping into the
`except` block of lines 115-120. -/
inductive ExecOutcome
  | ok (success : Bool)
  | exc
deriving DecidableEq

/-- Embeds `VPPSystem.process_event` (lines 87-120): find and allocate; on
allocation failure the event fails.  On success, run the execution step; if it
returns, release the allocations and report its result; if it raises, the
`except` block releases the allocations when the list is non-empty
(`if 'allocations' in locals() and allocations`) and the event fails.
Returns the reported success flag and the resulting registry. -/
def processEvent (registry : List DER) (event : Event) (exec : ExecOutcome) :
    Bool × List DER :=
  let r := allocate registry event
  if r.1 then
    match exec with
    | .ok s => (s, releaseResources r.2.2 r.2.1)
    | .exc => (false, if r.2.1.isEmpty then r.2.2 else releaseResources r.2.2 r.2.1)
  else
    (false, r.2.2)

/-- Modelled from the spec: the sources under `src/` contain no replenishment
implementation (the §4.4 Replenishment Cycle has no counterpart in
`src/vpp.py`).  Following §4.4 and §8: on each tick, for every Resource Unit
not in `OFFLINE` state, add the replenishment amount to available capacity,
clamped to total capacity, and update state to `AVAILABLE` if available
becomes positive. -/
def replenishTick (amount : ℚ) (ders : List DER) : List DER :=
  ders.map fun d =>
    if d.status = "OFFLINE" then d
    else
      let newAvail := min (d.available_capacity + amount) d.capacity
      { d with available_capacity := newAvail,
               status := if 0 < newAvail then "AVAILABLE" else d.status }

/-- Invariant of §8: every unit's available capacity lies between 0 and its
total capacity. -/
def capacityInvariant (ders : List DER) : Prop :=
  ∀ d ∈ ders, 0 ≤ d.available_capacity ∧ d.available_capacity ≤ d.capacity

instance (ders : List DER) : Decidable (capacityInvariant ders) :=
  inferInstanceAs (Decidable (∀ d ∈ ders, _ ∧ _))

/-- Registry ids are pairwise distinct, as guaranteed by `VPPSystem.ders`
being a dict keyed by id. -/
def idsNodup (ders : List DER) : Prop :=
  (ders.map DER.id).Nodup

instance (ders : List DER) : Decidable (idsNodup ders) :=
  inferInstanceAs (Decidable (List.Nodup _))

/-- Embeds `VPPSystem.add_event` (lines 56-58): put `(event.timestamp, event)`
into the event's priority-class queue.  The queue is modelled as the list of
entries in insertion order. -/
def queuePut (queue : List (Nat × Event)) (event : Event) : List (Nat × Event) :=
  queue ++ [(event.timestamp, event)]

/-- Comparison key of a queue entry: Python compares the tuple
`(event.timestamp, event)`, and `Event` (with `order=True`) compares only its
`priority` field. -/
def entryKey (p : Nat × Event) : Nat × Nat :=
  (p.1, p.2.priority)

/-- Strict lexicographic order on entry keys, as used by `asyncio.PriorityQueue`. -/
def keyLt (a b : Nat × Nat) : Bool :=
  a.1 < b.1 || (a.1 = b.1 && a.2 < b.2)

/-- Removes a minimal-key entry, as `PriorityQueue.get` does: returns the
first entry attaining the minimal key (which is the unique choice whenever
keys are distinct) together with the remaining entries in order. -/
def extractMin (best : Nat × Event) : List (Nat × Event) → (Nat × Event) × List (Nat × Event)
  | [] => (best, [])
  | f :: rest =>
    if keyLt (entryKey f) (entryKey best) then
      let res := extractMin f rest
      (res.1, best :: res.2)
    else
      let res := extractMin best rest
      (res.1, f :: res.2)

/-- Repeatedly dequeue a minimal entry, as `priority_processor` (lines 67-85)
does when draining its class's queue; fuel bounds the recursion. -/
def drainFuel : Nat → List (Nat × Event) → List Event
  | 0, _ => []
  | _, [] => []
  | n + 1, e :: rest =>
    let res := extractMin e rest
    res.1.2 :: drainFuel n res.2

/-- Order in which `priority_processor` dequeues the current contents of one
priority-class queue. -/
def drain (queue : List (Nat × Event)) : List Event :=
  drainFuel queue.length queue

/-- Fixture: the two-unit fleet of the spec scenario, capacities 100 and 50,
fully available. -/
def fleetAB : List DER :=
  [⟨"A", 100, 100, "online", "locA"⟩, ⟨"B", 50, 50, "online", "locB"⟩]

/-- Fixture: the fleet after allocating 120 out of `fleetAB`. -/
def fleetABAfter : List DER :=
  [⟨"A", 100, 0, "online", "locA"⟩, ⟨"B", 50, 30, "online", "locB"⟩]

/-- Fixture: an event requiring 120 units of capacity. -/
def eventReq120 : Event := ⟨1, "e120", 0, 10, 120, 1, "demand"⟩

/-- Fixture: an event requiring 200 units of capacity. -/
def eventReq200 : Event := ⟨1, "e200", 0, 10, 200, 1, "demand"⟩

/-- Fixture: an event with a negative resource requirement. -/
def eventNeg : Event := ⟨1, "eneg", 0, 10, -1, 1, "demand"⟩

/-- Fixture: a single-unit fleet whose unit is marked OFFLINE but has
positive available capacity. -/
def offlineFleet : List DER := [⟨"F", 100, 10, "OFFLINE", "locF"⟩]

/-- Fixture: an event requiring 5 units of capacity. -/
def eventReq5 : Event := ⟨1, "e5", 0, 10, 5, 1, "demand"⟩

/-- Fixture: a single-unit fleet in state AVAILABLE. -/
def statusFleet : List DER := [⟨"A", 100, 100, "AVAILABLE", "locA"⟩]

/-- Fixture: an event requiring 50 units of capacity. -/
def eventReq50 : Event := ⟨2, "e50", 0, 10, 50, 1, "demand"⟩

/-- Fixture: a depleted unit, available 0 of capacity 50. -/
def depletedUnit : DER := ⟨"u", 50, 0, "DEPLETED", "l"⟩

/-- Fixture: an event with creation timestamp 2, enqueued first in the C9
scenario. -/
def evA : Event := ⟨3, "A", 2, 0, 1, 1, "t"⟩

/-- Fixture: an event with creation timestamp 1, enqueued second in the C9
scenario. -/
def evB : Event := ⟨3, "B", 1, 0, 1, 1, "t"⟩

/-- Fixture: a fleet whose unit erroneously has available capacity above its
total capacity. -/
def overFullFleet : List DER := [⟨"X", 50, 80, "online", "locX"⟩]

/-! Algebraic lemmas about by-id registry updates. -/

theorem debitAll_cons (reg : List DER) (p : String × ℚ) (l : List (String × ℚ)) :
    debitAll reg (p :: l) = debitAll (debitUnit reg p.1 p.2) l := rfl

theorem rollback_cons (reg : List DER) (p : String × ℚ) (l : List (String × ℚ)) :
    rollbackAllocations reg (p :: l) = rollbackAllocations (creditUnit reg p.1 p.2) l := rfl

theorem releaseAll_cons (reg : List DER) (p : String × ℚ) (l : List (String × ℚ)) :
    releaseResources reg (p :: l) = releaseResources (releaseUnit reg p.1 p.2) l := rfl

theorem mapUnit_map_id (reg : List DER) (uid : String) (f : DER → DER)
    (hf : ∀ d, (f d).id = d.id) :
    (mapUnit reg uid f).map DER.id = reg.map DER.id := by
  induction reg with
  | nil => rfl
  | cons d rest ih =>
    simp only [mapUnit, List.map_cons] at ih ⊢
    by_cases hdu : d.id = uid <;> simp [hdu, hf, ih]

theorem mapUnit_map_status (reg : List DER) (uid : String) (f : DER → DER)
    (hf : ∀ d, (f d).status = d.status) :
    (mapUnit reg uid f).map DER.status = reg.map DER.status := by
  induction reg with
  | nil => rfl
  | cons d rest ih =>
    simp only [mapUnit, List.map_cons] at ih ⊢
    by_cases hdu : d.id = uid <;> simp [hdu, hf, ih]

theorem mapUnit_comm (reg : List DER) (u v : String) (f g : DER → DER)
    (hf : ∀ d, (f d).id = d.id) (hg : ∀ d, (g d).id = d.id)
    (hfg : u = v → ∀ d, f (g d) = g (f d)) :
    mapUnit (mapUnit reg v g) u f = mapUnit (mapUnit reg u f) v g := by
  have hidg : ∀ d : DER, (if d.id = v then g d else d).id = d.id := by
    intro d; by_cases h : d.id = v <;> simp [h, hg]
  have hidf : ∀ d : DER, (if d.id = u then f d else d).id = d.id := by
    intro d; by_cases h : d.id = u <;> simp [h, hf]
  simp only [mapUnit, List.map_map]
  refine List.map_congr_left ?_
  intro d _
  simp only [Function.comp_apply, hidg, hidf]
  by_cases hdv : d.id = v
  · by_cases hdu : d.id = u
    · have huv : u = v := hdu.symm.trans hdv
      subst huv
      simp only [if_pos hdu]
      exact hfg rfl d
    · simp only [if_pos hdv, if_neg hdu]
  · by_cases hdu : d.id = u
    · simp only [if_neg hdv, if_pos hdu]
    · simp only [if_neg hdv, if_neg hdu]

theorem creditUnit_debitUnit_comm (reg : List DER) (u v : String) (a b : ℚ) :
    creditUnit (debitUnit reg v b) u a = debitUnit (creditUnit reg u a) v b := by
  refine mapUnit_comm reg u v _ _ (fun d => rfl) (fun d => rfl) ?_
  intro _ d
  congr 1
  ring

theorem releaseUnit_debitUnit_comm (reg : List DER) (u v : String) (a b : ℚ) (huv : u ≠ v) :
    releaseUnit (debitUnit reg v b) u a = debitUnit (releaseUnit reg u a) v b := by
  refine mapUnit_comm reg u v _ _ (fun d => rfl) (fun d => rfl) ?_
  intro h
  exact absurd h huv

theorem mapUnit_mapUnit_same (reg : List DER) (u : String) (f g : DER → DER)
    (hf : ∀ d, (f d).id = d.id) :
    mapUnit (mapUnit reg u f) u g = mapUnit reg u fun d => g (f d) := by
  simp only [mapUnit, List.map_map]
  refine List.map_congr_left ?_
  intro d _
  simp only [Function.comp_apply]
  by_cases hdu : d.id = u
  · rw [if_pos hdu, if_pos ((hf d).trans hdu), if_pos hdu]
  · rw [if_neg hdu, if_neg hdu, if_neg hdu]

theorem mapUnit_id_of_mem (reg : List DER) (u : String) (f : DER → DER)
    (h : ∀ d ∈ reg, f d = d) :
    mapUnit reg u f = reg := by
  induction reg with
  | nil => rfl
  | cons d rest ih =>
    simp only [mapUnit, List.map_cons] at ih ⊢
    refine congrArg₂ List.cons ?_ (ih fun d hd => h d (List.mem_cons_of_mem _ hd))
    by_cases hdu : d.id = u
    · rw [if_pos hdu]; exact h d (List.mem_cons_self d rest)
    · rw [if_neg hdu]

theorem creditUnit_debitUnit_cancel (reg : List DER) (u : String) (a : ℚ) :
    creditUnit (debitUnit reg u a) u a = reg := by
  simp only [creditUnit, debitUnit]
  rw [mapUnit_mapUnit_same reg u
    (fun d => { d with available_capacity := d.available_capacity - a })
    (fun d => { d with available_capacity := d.available_capacity + a }) fun d => rfl]
  refine mapUnit_id_of_mem reg u _ fun d _ => ?_
  show ({ d with available_capacity := d.available_capacity - a + a } : DER) = d
  rw [sub_add_cancel]

theorem releaseUnit_debitUnit_cancel (reg : List DER) (u : String) (a : ℚ)
    (hcap : ∀ d ∈ reg, d.available_capacity ≤ d.capacity) :
    releaseUnit (debitUnit reg u a) u a = reg := by
  simp only [releaseUnit, debitUnit]
  rw [mapUnit_mapUnit_same reg u
    (fun d => { d with available_capacity := d.available_capacity - a })
    (fun d => { d with available_capacity := min (d.available_capacity + a) d.capacity })
    fun d => rfl]
  refine mapUnit_id_of_mem reg u _ fun d hd => ?_
  show ({ d with available_capacity := min (d.available_capacity - a + a) d.capacity } : DER) = d
  rw [sub_add_cancel, min_eq_left (hcap d hd)]

theorem creditUnit_debitAll_comm (l : List (String × ℚ)) (u : String) (a : ℚ) :
    ∀ reg : List DER, creditUnit (debitAll reg l) u a = debitAll (creditUnit reg u a) l := by
  induction l with
  | nil => intro reg; rfl
  | cons p rest ih =>
    intro reg
    rw [debitAll_cons, debitAll_cons, ih, creditUnit_debitUnit_comm]

theorem releaseUnit_debitAll_comm (l : List (String × ℚ)) (u : String) (a : ℚ)
    (hu : u ∉ l.map Prod.fst) :
    ∀ reg : List DER, releaseUnit (debitAll reg l) u a = debitAll (releaseUnit reg u a) l := by
  induction l with
  | nil => intro reg; rfl
  | cons p rest ih =>
    intro reg
    simp only [List.map_cons, List.mem_cons, not_or] at hu
    rw [debitAll_cons, debitAll_cons, ih hu.2, releaseUnit_debitUnit_comm _ _ _ _ _ hu.1]

theorem rollback_debitAll (l : List (String × ℚ)) :
    ∀ reg : List DER, rollbackAllocations (debitAll reg l) l = reg := by
  induction l with
  | nil => intro reg; rfl
  | cons p rest ih =>
    intro reg
    rw [debitAll_cons, rollback_cons, creditUnit_debitAll_comm, creditUnit_debitUnit_cancel]
    exact ih reg

theorem releaseAll_debitAll (l : List (String × ℚ)) :
    ∀ reg : List DER, (l.map Prod.fst).Nodup →
      (∀ d ∈ reg, d.available_capacity ≤ d.capacity) →
      releaseResources (debitAll reg l) l = reg := by
  induction l with
  | nil => intro reg _ _; rfl
  | cons p rest ih =>
    intro reg hnd hcap
    simp only [List.map_cons, List.nodup_cons] at hnd
    rw [debitAll_cons, releaseAll_cons, releaseUnit_debitAll_comm _ _ _ hnd.1,
      releaseUnit_debitUnit_cancel _ _ _ hcap]
    exact ih reg hnd.2 hcap

theorem allocLoop_nil (reg : List DER) (needed : ℚ) :
    allocLoop reg needed [] = (reg, [], needed) := rfl

theorem allocLoop_cons_done (reg : List DER) (needed : ℚ) (der : DER) (rest : List DER)
    (h : needed ≤ 0) :
    allocLoop reg needed (der :: rest) = (reg, [], needed) := by
  simp [allocLoop, h]

theorem allocLoop_cons_take (reg : List DER) (needed : ℚ) (der : DER) (rest : List DER)
    (h1 : ¬ needed ≤ 0) (h2 : 0 < min der.available_capacity needed) :
    allocLoop reg needed (der :: rest) =
      ((allocLoop (debitUnit reg der.id (min der.available_capacity needed))
          (needed - min der.available_capacity needed) rest).1,
        (der.id, min der.available_capacity needed) ::
          (allocLoop (debitUnit reg der.id (min der.available_capacity needed))
            (needed - min der.available_capacity needed) rest).2.1,
        (allocLoop (debitUnit reg der.id (min der.available_capacity needed))
          (needed - min der.available_capacity needed) rest).2.2) := by
  simp [allocLoop, h1, h2]

theorem allocLoop_cons_skip (reg : List DER) (needed : ℚ) (der : DER) (rest : List DER)
    (h1 : ¬ needed ≤ 0) (h2 : ¬ 0 < min der.available_capacity needed) :
    allocLoop reg needed (der :: rest) = allocLoop reg needed rest := by
  simp [allocLoop, h1, h2]

theorem allocLoop_fst (cs : List DER) : ∀ (reg : List DER) (needed : ℚ),
    (allocLoop reg needed cs).1 = debitAll reg (allocLoop reg needed cs).2.1 := by
  induction cs with
  | nil => intro reg needed; rfl
  | cons der rest ih =>
    intro reg needed
    by_cases h1 : needed ≤ 0
    · rw [allocLoop_cons_done reg needed der rest h1]
      rfl
    · by_cases h2 : 0 < min der.available_capacity needed
      · rw [allocLoop_cons_take reg needed der rest h1 h2]
        rw [show ((allocLoop (debitUnit reg der.id (min der.available_capacity needed))
            (needed - min der.available_capacity needed) rest).1,
            (der.id, min der.available_capacity needed) ::
              (allocLoop (debitUnit reg der.id (min der.available_capacity needed))
                (needed - min der.available_capacity needed) rest).2.1,
            (allocLoop (debitUnit reg der.id (min der.available_capacity needed))
              (needed - min der.available_capacity needed) rest).2.2).2.1 =
            (der.id, min der.available_capacity needed) ::
              (allocLoop (debitUnit reg der.id (min der.available_capacity needed))
                (needed - min der.available_capacity needed) rest).2.1 from rfl]
        rw [debitAll_cons]
        exact ih _ _
      · rw [allocLoop_cons_skip reg needed der rest h1 h2]
        exact ih _ _

theorem allocLoop_allocs_mem (cs : List DER) : ∀ (reg : List DER) (needed : ℚ),
    ∀ p ∈ (allocLoop reg needed cs).2.1,
      0 < p.2 ∧ ∃ d ∈ cs, p.1 = d.id ∧ p.2 ≤ d.available_capacity := by
  induction cs with
  | nil => intro reg needed p hp; simp [allocLoop_nil] at hp
  | cons der rest ih =>
    intro reg needed p hp
    by_cases h1 : needed ≤ 0
    · rw [allocLoop_cons_done reg needed der rest h1] at hp
      simp at hp
    · by_cases h2 : 0 < min der.available_capacity needed
      · rw [allocLoop_cons_take reg needed der rest h1 h2] at hp
        simp only [List.mem_cons] at hp
        rcases hp with rfl | hp
        · exact ⟨h2, der, List.mem_cons_self _ _, rfl, min_le_left _ _⟩
        · obtain ⟨hpos, d, hd, hid, hle⟩ := ih _ _ p hp
          exact ⟨hpos, d, List.mem_cons_of_mem _ hd, hid, hle⟩
      · rw [allocLoop_cons_skip reg needed der rest h1 h2] at hp
        obtain ⟨hpos, d, hd, hid, hle⟩ := ih _ _ p hp
        exact ⟨hpos, d, List.mem_cons_of_mem _ hd, hid, hle⟩

theorem allocLoop_ids_sublist (cs : List DER) : ∀ (reg : List DER) (needed : ℚ),
    List.Sublist ((allocLoop reg needed cs).2.1.map Prod.fst) (cs.map DER.id) := by
  induction cs with
  | nil => intro reg needed; simp [allocLoop_nil]
  | cons der rest ih =>
    intro reg needed
    by_cases h1 : needed ≤ 0
    · rw [allocLoop_cons_done reg needed der rest h1]; simp
    · by_cases h2 : 0 < min der.available_capacity needed
      · rw [allocLoop_cons_take reg needed der rest h1 h2]
        simp only [List.map_cons]
        exact List.Sublist.cons₂ _ (ih _ _)
      · rw [allocLoop_cons_skip reg needed der rest h1 h2]
        exact List.Sublist.cons _ (ih _ _)

theorem allocLoop_rem (cs : List DER) : ∀ (reg : List DER) (needed : ℚ),
    (allocLoop reg needed cs).2.2 =
      needed - (((allocLoop reg needed cs).2.1).map Prod.snd).sum := by
  induction cs with
  | nil => intro reg needed; simp [allocLoop_nil]
  | cons der rest ih =>
    intro reg needed
    by_cases h1 : needed ≤ 0
    · rw [allocLoop_cons_done reg needed der rest h1]; simp
    · by_cases h2 : 0 < min der.available_capacity needed
      · rw [allocLoop_cons_take reg needed der rest h1 h2]
        simp only [List.map_cons, List.sum_cons]
        rw [ih _ _]
        ring
      · rw [allocLoop_cons_skip reg needed der rest h1 h2]
        exact ih _ _

theorem allocLoop_rem_nonneg (cs : List DER) : ∀ (reg : List DER) (needed : ℚ),
    0 ≤ needed → 0 ≤ (allocLoop reg needed cs).2.2 := by
  induction cs with
  | nil => intro reg needed h; exact h
  | cons der rest ih =>
    intro reg needed h
    by_cases h1 : needed ≤ 0
    · rw [allocLoop_cons_done reg needed der rest h1]; exact h
    · by_cases h2 : 0 < min der.available_capacity needed
      · rw [allocLoop_cons_take reg needed der rest h1 h2]
        exact ih _ _ (sub_nonneg.mpr (min_le_right _ _))
      · rw [allocLoop_cons_skip reg needed der rest h1 h2]
        exact ih _ _ h

theorem allocLoop_rem_nonpos (cs : List DER) : ∀ (reg : List DER) (needed : ℚ),
    (needed ≤ 0 ∨ needed ≤ ((cs.map DER.available_capacity).sum)) →
    (allocLoop reg needed cs).2.2 ≤ 0 := by
  induction cs with
  | nil =>
    intro reg needed h
    rcases h with h | h
    · exact h
    · simpa using h
  | cons der rest ih =>
    intro reg needed h
    by_cases h1 : needed ≤ 0
    · rw [allocLoop_cons_done reg needed der rest h1]; exact h1
    · have hsum : needed ≤ der.available_capacity + (rest.map DER.available_capacity).sum := by
        rcases h with h | h
        · exact absurd h h1
        · simpa using h
      by_cases h2 : 0 < min der.available_capacity needed
      · rw [allocLoop_cons_take reg needed der rest h1 h2]
        refine ih _ _ ?_
        rcases le_or_lt der.available_capacity needed with hc | hc
        · right
          rw [min_eq_left hc]
          linarith
        · left
          rw [min_eq_right hc.le]
          simp
      · rw [allocLoop_cons_skip reg needed der rest h1 h2]
        refine ih _ _ (Or.inr ?_)
        have havail : der.available_capacity ≤ 0 := by
          by_contra hpos
          push_neg at hpos
          exact h2 (lt_min hpos (lt_of_not_le h1))
        linarith

theorem find_eq_of_le (reg : List DER) (required : ℚ)
    (h : required ≤ totalAvailableCapacity reg) :
    findAvailableResources reg required =
      List.insertionSort availGE (reg.filter fun d => 0 < d.available_capacity) := by
  simp only [totalAvailableCapacity] at h
  simp only [findAvailableResources]
  rw [if_pos h]

theorem find_eq_of_gt (reg : List DER) (required : ℚ)
    (h : ¬ required ≤ totalAvailableCapacity reg) :
    findAvailableResources reg required = [] := by
  simp only [totalAvailableCapacity] at h
  simp only [findAvailableResources]
  rw [if_neg h]

theorem find_perm (reg : List DER) (required : ℚ)
    (h : required ≤ totalAvailableCapacity reg) :
    List.Perm (findAvailableResources reg required)
      (reg.filter fun d => 0 < d.available_capacity) := by
  rw [find_eq_of_le reg required h]
  exact List.perm_insertionSort _ _

theorem find_sorted (reg : List DER) (required : ℚ) :
    List.Sorted availGE (findAvailableResources reg required) := by
  by_cases h : required ≤ totalAvailableCapacity reg
  · rw [find_eq_of_le reg required h]
    exact List.sorted_insertionSort _ _
  · rw [find_eq_of_gt reg required h]
    exact List.sorted_nil

theorem find_mem (reg : List DER) (required : ℚ)
    (h : required ≤ totalAvailableCapacity reg) (d : DER) :
    d ∈ findAvailableResources reg required ↔ d ∈ reg ∧ 0 < d.available_capacity := by
  rw [(find_perm reg required h).mem_iff]
  simp [List.mem_filter]

theorem find_sum (reg : List DER) (required : ℚ)
    (h : required ≤ totalAvailableCapacity reg) :
    (((findAvailableResources reg required).map DER.available_capacity).sum) =
      totalAvailableCapacity reg :=
  ((find_perm reg required h).map DER.available_capacity).sum_eq

theorem find_ids_nodup (reg : List DER) (required : ℚ) (hnd : idsNodup reg) :
    (((findAvailableResources reg required).map DER.id)).Nodup := by
  by_cases h : required ≤ totalAvailableCapacity reg
  · refine ((find_perm reg required h).map DER.id).nodup_iff.mpr ?_
    exact ((List.filter_sublist reg).map DER.id).nodup hnd
  · rw [find_eq_of_gt reg required h]
    simp

theorem debitUnit_inv (reg : List DER) (u : String) (a : ℚ)
    (hinv : capacityInvariant reg) (ha : 0 < a)
    (hb : ∀ d ∈ reg, d.id = u → a ≤ d.available_capacity) :
    capacityInvariant (debitUnit reg u a) := by
  intro d' hd'
  simp only [debitUnit, mapUnit, List.mem_map] at hd'
  obtain ⟨d, hd, rfl⟩ := hd'
  by_cases hdu : d.id = u
  · rw [if_pos hdu]
    obtain ⟨h0, hc⟩ := hinv d hd
    have hb' := hb d hd hdu
    refine ⟨?_, ?_⟩
    · show 0 ≤ d.available_capacity - a
      linarith
    · show d.available_capacity - a ≤ d.capacity
      linarith
  · rw [if_neg hdu]
    exact hinv d hd

theorem debitAll_inv (l : List (String × ℚ)) : ∀ reg : List DER, (l.map Prod.fst).Nodup →
    (∀ p ∈ l, 0 < p.2 ∧ ∀ d ∈ reg, d.id = p.1 → p.2 ≤ d.available_capacity) →
    capacityInvariant reg → capacityInvariant (debitAll reg l) := by
  induction l with
  | nil => intro reg _ _ h; exact h
  | cons p rest ih =>
    intro reg hnd hl hinv
    simp only [List.map_cons, List.nodup_cons] at hnd
    rw [debitAll_cons]
    obtain ⟨hp, hb⟩ := hl p (List.mem_cons_self _ _)
    refine ih _ hnd.2 ?_ (debitUnit_inv reg p.1 p.2 hinv hp hb)
    intro q hq
    obtain ⟨hq2, hqb⟩ := hl q (List.mem_cons_of_mem _ hq)
    refine ⟨hq2, ?_⟩
    intro d' hd' hid
    have hqp : q.1 ≠ p.1 := by
      intro hcontra
      exact hnd.1 (hcontra ▸ List.mem_map_of_mem Prod.fst hq)
    simp only [debitUnit, mapUnit, List.mem_map] at hd'
    obtain ⟨d, hd, rfl⟩ := hd'
    by_cases hdu : d.id = p.1
    · rw [if_pos hdu] at hid
      have hdq : d.id = q.1 := hid
      exact absurd (hdu.symm.trans hdq).symm hqp
    · rw [if_neg hdu] at hid ⊢
      exact hqb d hd hid

theorem allocateResources_fail (ev : Event) (reg cs : List DER)
    (h : (allocateResources ev reg cs).1 = false) :
    (allocateResources ev reg cs).2.2 = reg ∧ (allocateResources ev reg cs).2.1 = [] := by
  simp only [allocateResources] at h ⊢
  by_cases hrem : 0 < (allocLoop reg ev.resource_requirement cs).2.2
  · rw [if_pos hrem]
    refine ⟨?_, rfl⟩
    show rollbackAllocations (allocLoop reg ev.resource_requirement cs).1
      (allocLoop reg ev.resource_requirement cs).2.1 = reg
    rw [allocLoop_fst]
    exact rollback_debitAll _ reg
  · rw [if_neg hrem] at h
    simp at h

theorem allocateResources_success (ev : Event) (reg cs : List DER)
    (h : (allocateResources ev reg cs).1 = true) :
    (allocateResources ev reg cs).2.1 = (allocLoop reg ev.resource_requirement cs).2.1 ∧
    (allocateResources ev reg cs).2.2 =
      debitAll reg (allocLoop reg ev.resource_requirement cs).2.1 ∧
    (allocLoop reg ev.resource_requirement cs).2.2 ≤ 0 := by
  simp only [allocateResources] at h ⊢
  by_cases hrem : 0 < (allocLoop reg ev.resource_requirement cs).2.2
  · rw [if_pos hrem] at h
    simp at h
  · rw [if_neg hrem]
    exact ⟨rfl, allocLoop_fst _ _ _, not_lt.mp hrem⟩

theorem allocateResources_true_of_rem (ev : Event) (reg cs : List DER)
    (h : ¬ 0 < (allocLoop reg ev.resource_requirement cs).2.2) :
    (allocateResources ev reg cs).1 = true := by
  simp only [allocateResources]
  rw [if_neg h]

theorem allocate_empty (reg : List DER) (ev : Event)
    (h : (findAvailableResources reg ev.resource_requirement).isEmpty = true) :
    allocate reg ev = (false, [], reg) := by
  simp only [allocate]
  rw [if_pos h]

theorem allocate_nonempty (reg : List DER) (ev : Event)
    (h : ¬ (findAvailableResources reg ev.resource_requirement).isEmpty = true) :
    allocate reg ev =
      allocateResources ev reg (findAvailableResources reg ev.resource_requirement) := by
  simp only [allocate]
  rw [if_neg h]

theorem allocate_fail_restore (reg : List DER) (ev : Event)
    (h : (allocate reg ev).1 = false) :
    (allocate reg ev).2.2 = reg := by
  by_cases he : (findAvailableResources reg ev.resource_requirement).isEmpty = true
  · rw [allocate_empty reg ev he]
  · rw [allocate_nonempty reg ev he] at h ⊢
    exact (allocateResources_fail _ _ _ h).1

theorem allocate_success_struct (reg : List DER) (ev : Event)
    (h : (allocate reg ev).1 = true) :
    ¬ (findAvailableResources reg ev.resource_requirement).isEmpty = true ∧
    (allocate reg ev).2.1 =
      (allocLoop reg ev.resource_requirement
        (findAvailableResources reg ev.resource_requirement)).2.1 ∧
    (allocate reg ev).2.2 = debitAll reg ((allocate reg ev).2.1) := by
  by_cases he : (findAvailableResources reg ev.resource_requirement).isEmpty = true
  · rw [allocate_empty reg ev he] at h
    simp at h
  · rw [allocate_nonempty reg ev he] at h ⊢
    obtain ⟨h1, h2, _⟩ := allocateResources_success _ _ _ h
    exact ⟨he, h1, by rw [h1, h2]⟩

theorem allocate_success_le (reg : List DER) (ev : Event)
    (h : (allocate reg ev).1 = true) :
    ev.resource_requirement ≤ totalAvailableCapacity reg := by
  by_contra hle
  have hfe := find_eq_of_gt reg ev.resource_requirement hle
  have hempty : (findAvailableResources reg ev.resource_requirement).isEmpty = true := by
    rw [hfe]; rfl
  rw [allocate_empty reg ev hempty] at h
  simp at h

theorem allocate_pairs (reg : List DER) (ev : Event) (hnd : idsNodup reg)
    (h : (allocate reg ev).1 = true) :
    (((allocate reg ev).2.1).map Prod.fst).Nodup ∧
    ∀ p ∈ (allocate reg ev).2.1,
      0 < p.2 ∧ ∀ d ∈ reg, d.id = p.1 → p.2 ≤ d.available_capacity := by
  obtain ⟨he, h1, h2⟩ := allocate_success_struct reg ev h
  have hle := allocate_success_le reg ev h
  constructor
  · rw [h1]
    exact (allocLoop_ids_sublist _ _ _).nodup (find_ids_nodup reg _ hnd)
  · intro p hp
    rw [h1] at hp
    obtain ⟨hpos, d, hd, hid, hle'⟩ := allocLoop_allocs_mem _ _ _ p hp
    have hdreg : d ∈ reg := ((find_mem reg _ hle d).mp hd).1
    refine ⟨hpos, ?_⟩
    intro d' hd' hid'
    have hdd : d' = d := List.inj_on_of_nodup_map hnd hd' hdreg (by rw [hid', hid])
    rw [hdd]
    exact hle'

theorem allocate_inv (reg : List DER) (ev : Event)
    (hinv : capacityInvariant reg) (hnd : idsNodup reg) :
    capacityInvariant (allocate reg ev).2.2 := by
  cases hb : (allocate reg ev).1 with
  | false =>
    rw [allocate_fail_restore reg ev hb]
    exact hinv
  | true =>
    obtain ⟨hnd', hpairs⟩ := allocate_pairs reg ev hnd hb
    obtain ⟨_, h1, h2⟩ := allocate_success_struct reg ev hb
    rw [h2]
    exact debitAll_inv _ reg hnd' hpairs hinv

theorem allocate_release_restore (reg : List DER) (ev : Event)
    (hinv : capacityInvariant reg) (hnd : idsNodup reg)
    (h : (allocate reg ev).1 = true) :
    releaseResources (allocate reg ev).2.2 (allocate reg ev).2.1 = reg := by
  obtain ⟨_, h1, h2⟩ := allocate_success_struct reg ev h
  obtain ⟨hnd', _⟩ := allocate_pairs reg ev hnd h
  rw [h2]
  exact releaseAll_debitAll _ reg hnd' fun d hd => (hinv d hd).2

theorem processEvent_exc_restore (reg : List DER) (ev : Event)
    (hinv : capacityInvariant reg) (hnd : idsNodup reg)
    (h : (allocate reg ev).1 = true) :
    processEvent reg ev ExecOutcome.exc = (false, reg) := by
  by_cases hae : (allocate reg ev).2.1.isEmpty = true
  · have hreg : (allocate reg ev).2.2 = reg := by
      obtain ⟨_, _, h2⟩ := allocate_success_struct reg ev h
      rw [h2, List.isEmpty_iff.mp hae]
      rfl
    simp [processEvent, h, hae, hreg]
  · have hrel : releaseResources (allocate reg ev).2.2 (allocate reg ev).2.1 = reg :=
      allocate_release_restore reg ev hinv hnd h
    simp [processEvent, h, hae, hrel]

theorem allocate_succeeds (reg : List DER) (ev : Event)
    (hr : 0 < ev.resource_requirement)
    (hle : ev.resource_requirement ≤ totalAvailableCapacity reg) :
    (allocate reg ev).1 = true ∧
    ((((allocate reg ev).2.1).map Prod.snd).sum) = ev.resource_requirement := by
  have hfilter : (reg.filter fun d => 0 < d.available_capacity) ≠ [] := by
    intro hnil
    have hz : totalAvailableCapacity reg = 0 := by
      simp [totalAvailableCapacity, hnil]
    rw [hz] at hle
    linarith
  have hne : ¬ (findAvailableResources reg ev.resource_requirement).isEmpty = true := by
    rw [find_eq_of_le reg _ hle, List.isEmpty_iff]
    intro hsort
    have hperm := List.perm_insertionSort availGE (reg.filter fun d => 0 < d.available_capacity)
    rw [hsort] at hperm
    exact hfilter hperm.symm.eq_nil
  have hsum : (((findAvailableResources reg ev.resource_requirement).map
      DER.available_capacity).sum) = totalAvailableCapacity reg := find_sum reg _ hle
  have hnonpos : (allocLoop reg ev.resource_requirement
      (findAvailableResources reg ev.resource_requirement)).2.2 ≤ 0 :=
    allocLoop_rem_nonpos _ reg _ (Or.inr (by rw [hsum]; exact hle))
  have hnonneg : 0 ≤ (allocLoop reg ev.resource_requirement
      (findAvailableResources reg ev.resource_requirement)).2.2 :=
    allocLoop_rem_nonneg _ reg _ hr.le
  have hzero : (allocLoop reg ev.resource_requirement
      (findAvailableResources reg ev.resource_requirement)).2.2 = 0 :=
    le_antisymm hnonpos hnonneg
  have htrue : (allocate reg ev).1 = true := by
    rw [allocate_nonempty reg ev hne]
    exact allocateResources_true_of_rem _ _ _ (by rw [hzero]; exact lt_irrefl 0)
  refine ⟨htrue, ?_⟩
  obtain ⟨_, h1, _⟩ := allocate_success_struct reg ev htrue
  rw [h1]
  have hrem := allocLoop_rem (findAvailableResources reg ev.resource_requirement)
    reg ev.resource_requirement
  rw [hzero] at hrem
  linarith

theorem debitUnit_map_status (reg : List DER) (u : String) (a : ℚ) :
    (debitUnit reg u a).map DER.status = reg.map DER.status :=
  mapUnit_map_status reg u _ fun _ => rfl

theorem creditUnit_map_status (reg : List DER) (u : String) (a : ℚ) :
    (creditUnit reg u a).map DER.status = reg.map DER.status :=
  mapUnit_map_status reg u _ fun _ => rfl

theorem releaseUnit_map_status (reg : List DER) (u : String) (a : ℚ) :
    (releaseUnit reg u a).map DER.status = reg.map DER.status :=
  mapUnit_map_status reg u _ fun _ => rfl

theorem debitAll_map_status (l : List (String × ℚ)) : ∀ reg : List DER,
    (debitAll reg l).map DER.status = reg.map DER.status := by
  induction l with
  | nil => intro reg; rfl
  | cons p rest ih =>
    intro reg
    rw [debitAll_cons, ih, debitUnit_map_status]

theorem rollback_map_status (l : List (String × ℚ)) : ∀ reg : List DER,
    (rollbackAllocations reg l).map DER.status = reg.map DER.status := by
  induction l with
  | nil => intro reg; rfl
  | cons p rest ih =>
    intro reg
    rw [rollback_cons, ih, creditUnit_map_status]

theorem releaseAll_map_status (l : List (String × ℚ)) : ∀ reg : List DER,
    (releaseResources reg l).map DER.status = reg.map DER.status := by
  induction l with
  | nil => intro reg; rfl
  | cons p rest ih =>
    intro reg
    rw [releaseAll_cons, ih, releaseUnit_map_status]

theorem allocateResources_map_status (ev : Event) (reg cs : List DER) :
    ((allocateResources ev reg cs).2.2).map DER.status = reg.map DER.status := by
  simp only [allocateResources]
  by_cases hrem : 0 < (allocLoop reg ev.resource_requirement cs).2.2
  · rw [if_pos hrem]
    show (rollbackAllocations (allocLoop reg ev.resource_requirement cs).1
      (allocLoop reg ev.resource_requirement cs).2.1).map DER.status = reg.map DER.status
    rw [rollback_map_status, allocLoop_fst, debitAll_map_status]
  · rw [if_neg hrem]
    show ((allocLoop reg ev.resource_requirement cs).1).map DER.status = reg.map DER.status
    rw [allocLoop_fst, debitAll_map_status]

theorem allocate_map_status (reg : List DER) (ev : Event) :
    ((allocate reg ev).2.2).map DER.status = reg.map DER.status := by
  by_cases he : (findAvailableResources reg ev.resource_requirement).isEmpty = true
  · rw [allocate_empty reg ev he]
  · rw [allocate_nonempty reg ev he]
    exact allocateResources_map_status ev reg _

theorem releaseUnit_cap_self (reg : List DER) (u : String) (a : ℚ) :
    ∀ d ∈ releaseUnit reg u a, d.id = u → d.available_capacity ≤ d.capacity := by
  intro d' hd' hid
  simp only [releaseUnit, mapUnit, List.mem_map] at hd'
  obtain ⟨d, hd, rfl⟩ := hd'
  by_cases hdu : d.id = u
  · rw [if_pos hdu]
    show min (d.available_capacity + a) d.capacity ≤ d.capacity
    exact min_le_right _ _
  · rw [if_neg hdu] at hid
    exact absurd hid hdu

theorem releaseUnit_cap_preserve (reg : List DER) (u v : String) (a : ℚ)
    (h : ∀ d ∈ reg, d.id = v → d.available_capacity ≤ d.capacity) :
    ∀ d ∈ releaseUnit reg u a, d.id = v → d.available_capacity ≤ d.capacity := by
  intro d' hd' hid
  simp only [releaseUnit, mapUnit, List.mem_map] at hd'
  obtain ⟨d, hd, rfl⟩ := hd'
  by_cases hdu : d.id = u
  · rw [if_pos hdu]
    show min (d.available_capacity + a) d.capacity ≤ d.capacity
    exact min_le_right _ _
  · rw [if_neg hdu] at hid ⊢
    exact h d hd hid

theorem releaseAll_cap_preserve (l : List (String × ℚ)) : ∀ (reg : List DER) (v : String),
    (∀ d ∈ reg, d.id = v → d.available_capacity ≤ d.capacity) →
    ∀ d ∈ releaseResources reg l, d.id = v → d.available_capacity ≤ d.capacity := by
  induction l with
  | nil => intro reg v h; exact h
  | cons p rest ih =>
    intro reg v h
    rw [releaseAll_cons]
    exact ih _ v (releaseUnit_cap_preserve reg p.1 v p.2 h)

theorem releaseAll_cap (l : List (String × ℚ)) : ∀ (reg : List DER) (u : String),
    u ∈ l.map Prod.fst →
    ∀ d ∈ releaseResources reg l, d.id = u → d.available_capacity ≤ d.capacity := by
  induction l with
  | nil => intro reg u hu; simp at hu
  | cons p rest ih =>
    intro reg u hu
    simp only [List.map_cons, List.mem_cons] at hu
    rw [releaseAll_cons]
    rcases hu with rfl | hu
    · exact releaseAll_cap_preserve rest _ p.1 (releaseUnit_cap_self reg p.1 p.2)
    · exact ih _ u hu

theorem allocate_neg (reg : List DER) (ev : Event)
    (hneg : ev.resource_requirement < 0) :
    (allocate reg ev).2.2 = reg ∧ (allocate reg ev).2.1 = [] ∧
    ((allocate reg ev).1 = true ↔ ∃ d ∈ reg, 0 < d.available_capacity) := by
  have htot : 0 ≤ totalAvailableCapacity reg := by
    refine List.sum_nonneg ?_
    intro x hx
    simp only [List.mem_map] at hx
    obtain ⟨d, hd, rfl⟩ := hx
    have hmem := List.mem_filter.mp hd
    have h0 : 0 < d.available_capacity := by simpa using hmem.2
    exact h0.le
  have hle : ev.resource_requirement ≤ totalAvailableCapacity reg := le_trans hneg.le htot
  by_cases hne : (findAvailableResources reg ev.resource_requirement).isEmpty = true
  · rw [allocate_empty reg ev hne]
    refine ⟨rfl, rfl, ?_⟩
    constructor
    · intro h; simp at h
    · rintro ⟨d, hd, hpos⟩
      exfalso
      have hmem : d ∈ findAvailableResources reg ev.resource_requirement :=
        (find_mem reg _ hle d).mpr ⟨hd, hpos⟩
      rw [List.isEmpty_iff.mp hne] at hmem
      simp at hmem
  · rw [allocate_nonempty reg ev hne]
    have hloop : allocLoop reg ev.resource_requirement
        (findAvailableResources reg ev.resource_requirement) =
        (reg, [], ev.resource_requirement) := by
      cases hcs : findAvailableResources reg ev.resource_requirement with
      | nil => rw [allocLoop_nil]
      | cons der rest => exact allocLoop_cons_done reg _ der rest hneg.le
    simp only [allocateResources, hloop]
    rw [if_neg (show ¬ (0 : ℚ) < ev.resource_requirement from not_lt.mpr hneg.le)]
    refine ⟨rfl, rfl, ?_⟩
    constructor
    · intro _
      have hnonnil : findAvailableResources reg ev.resource_requirement ≠ [] := by
        intro hnil
        exact hne (by rw [hnil]; rfl)
      obtain ⟨d, hd⟩ := List.exists_mem_of_ne_nil _ hnonnil
      obtain ⟨hdreg, hdpos⟩ := (find_mem reg _ hle d).mp hd
      exact ⟨d, hdreg, hdpos⟩
    · intro _; rfl

theorem replenishTick_length (amount : ℚ) (ders : List DER) :
    (replenishTick amount ders).length = ders.length := by
  simp [replenishTick]

theorem replenishTick_get (amount : ℚ) (ders : List DER) (i : ℕ)
    (hi : i < ders.length) (hi2 : i < (replenishTick amount ders).length)
    (hoff : (ders.get ⟨i, hi⟩).status ≠ "OFFLINE") :
    (replenishTick amount ders).get ⟨i, hi2⟩ =
      { ders.get ⟨i, hi⟩ with
        available_capacity :=
          min ((ders.get ⟨i, hi⟩).available_capacity + amount) (ders.get ⟨i, hi⟩).capacity,
        status :=
          if 0 < min ((ders.get ⟨i, hi⟩).available_capacity + amount) (ders.get ⟨i, hi⟩).capacity
          then "AVAILABLE" else (ders.get ⟨i, hi⟩).status } := by
  simp only [List.get_eq_getElem] at hoff
  simp only [replenishTick, List.get_eq_getElem, List.getElem_map]
  rw [if_neg hoff]

theorem extractMin_of_min (best : Nat × Event) (rest : List (Nat × Event))
    (h : ∀ f ∈ rest, keyLt (entryKey f) (entryKey best) = false) :
    extractMin best rest = (best, rest) := by
  induction rest with
  | nil => rfl
  | cons f r ih =>
    have hf := h f (List.mem_cons_self _ _)
    simp only [extractMin, hf]
    rw [ih fun g hg => h g (List.mem_cons_of_mem _ hg)]
    simp

theorem drain_sorted (queue : List (Nat × Event))
    (h : queue.Pairwise fun a b => a.1 < b.1) :
    drain queue = queue.map Prod.snd := by
  induction queue with
  | nil => rfl
  | cons e rest ih =>
    have hmin : ∀ f ∈ rest, keyLt (entryKey f) (entryKey e) = false := by
      intro f hf
      have hlt : e.1 < f.1 := (List.pairwise_cons.mp h).1 f hf
      simp only [keyLt, entryKey]
      simp only [Bool.or_eq_false_iff, Bool.and_eq_false_iff]
      constructor
      · simp only [decide_eq_false_iff_not]
        omega
      · left
        simp only [decide_eq_false_iff_not]
        omega
    have hstep : drainFuel (e :: rest).length (e :: rest) =
        (extractMin e rest).1.2 :: drainFuel rest.length (extractMin e rest).2 := rfl
    show drainFuel (e :: rest).length (e :: rest) = _
    rw [hstep, extractMin_of_min e rest hmin]
    show e.2 :: drainFuel rest.length rest = (e :: rest).map Prod.snd
    rw [show drainFuel rest.length rest = drain rest from rfl,
      ih (List.pairwise_cons.mp h).2]
    rfl

theorem eval_allocate_120 :
    allocate fleetAB eventReq120 = (true, [("A", 100), ("B", 20)], fleetABAfter) := by
  have hBA : ¬ ("B" : String) = "A" := by decide
  have hAB : ¬ ("A" : String) = "B" := by decide
  norm_num [allocate, findAvailableResources, allocateResources, allocLoop, debitUnit,
    mapUnit, List.insertionSort, List.orderedInsert, availGE, fleetAB, fleetABAfter,
    eventReq120, hBA, hAB]

theorem eval_release_AB :
    releaseResources fleetABAfter [("A", 100), ("B", 20)] = fleetAB := by
  have hBA : ¬ ("B" : String) = "A" := by decide
  have hAB : ¬ ("A" : String) = "B" := by decide
  norm_num [releaseResources, releaseUnit, mapUnit, fleetAB, fleetABAfter, hBA, hAB]

theorem eval_allocate_200 : allocate fleetAB eventReq200 = (false, [], fleetAB) := by
  norm_num [allocate, findAvailableResources, fleetAB, eventReq200]

theorem eval_allocRes_200 :
    allocateResources eventReq200 fleetAB fleetAB = (false, [], fleetAB) := by
  have hBA : ¬ ("B" : String) = "A" := by decide
  have hAB : ¬ ("A" : String) = "B" := by decide
  norm_num [allocateResources, allocLoop, debitUnit, creditUnit, mapUnit,
    rollbackAllocations, fleetAB, eventReq200, hBA, hAB]

theorem eval_allocate_50 :
    allocate statusFleet eventReq50 =
      (true, [("A", 50)], [⟨"A", 100, 50, "AVAILABLE", "locA"⟩]) := by
  norm_num [allocate, findAvailableResources, allocateResources, allocLoop, debitUnit,
    mapUnit, List.insertionSort, List.orderedInsert, availGE, statusFleet, eventReq50]

theorem eval_find_off :
    findAvailableResources offlineFleet 5 = [⟨"F", 100, 10, "OFFLINE", "locF"⟩] := by
  norm_num [findAvailableResources, List.insertionSort, List.orderedInsert, availGE,
    offlineFleet]

theorem eval_allocate_off :
    allocate offlineFleet eventReq5 =
      (true, [("F", 5)], [⟨"F", 100, 5, "OFFLINE", "locF"⟩]) := by
  norm_num [allocate, findAvailableResources, allocateResources, allocLoop, debitUnit,
    mapUnit, List.insertionSort, List.orderedInsert, availGE, offlineFleet, eventReq5]

theorem eval_allocate_neg : allocate fleetAB eventNeg = (true, [], fleetAB) := by
  norm_num [allocate, findAvailableResources, allocateResources, allocLoop,
    List.insertionSort, List.orderedInsert, availGE, fleetAB, eventNeg]

theorem eval_replenish :
    replenishTick 10 [depletedUnit] = [⟨"u", 50, 10, "AVAILABLE", "l"⟩] := by
  have hDO : ¬ ("DEPLETED" : String) = "OFFLINE" := by decide
  norm_num [replenishTick, depletedUnit, hDO]

theorem eval_release_over :
    releaseResources overFullFleet [("X", 10)] = [⟨"X", 50, 50, "online", "locX"⟩] := by
  norm_num [releaseResources, releaseUnit, mapUnit, overFullFleet]

theorem eval_total_AB : totalAvailableCapacity fleetAB = 150 := by
  norm_num [totalAvailableCapacity, fleetAB]

/-- C1: every failing allocate call leaves every DER unchanged — the
fast-fail path of `process_event`/`_find_available_resources` performs no
mutation, and the partial-walk failure of `_allocate_resources` (stated for
an arbitrary candidate list) rolls back every already-deducted amount. -/
theorem spec_C1 (registry : List DER) (event : Event) :
    ((allocate registry event).1 = false → (allocate registry event).2.2 = registry) ∧
    ∀ cands : List DER, (allocateResources event registry cands).1 = false →
      (allocateResources event registry cands).2.2 = registry :=
  ⟨allocate_fail_restore registry event,
    fun cands h => (allocateResources_fail event registry cands h).1⟩

theorem spec_C1_witness :
    (allocate fleetAB eventReq200).2.2 = fleetAB ∧
    (allocateResources eventReq200 fleetAB fleetAB).2.2 = fleetAB := by
  have h1 : (allocate fleetAB eventReq200).1 = false := by rw [eval_allocate_200]
  have h2 : (allocateResources eventReq200 fleetAB fleetAB).1 = false := by
    rw [eval_allocRes_200]
  exact ⟨(spec_C1 fleetAB eventReq200).1 h1, (spec_C1 fleetAB eventReq200).2 fleetAB h2⟩

/-- C2: starting from a registry with unique ids where every unit satisfies
0 ≤ available ≤ capacity, allocation (for a non-negative requirement)
preserves the invariant on every path, and releasing the record of a
matching successful allocation preserves it as well. -/
theorem spec_C2 (registry : List DER) (event : Event)
    (hinv : capacityInvariant registry) (hnd : idsNodup registry)
    (hreq : 0 ≤ event.resource_requirement) :
    capacityInvariant (allocate registry event).2.2 ∧
    ∀ (allocs : List (String × ℚ)) (reg2 : List DER),
      allocate registry event = (true, allocs, reg2) →
      capacityInvariant (releaseResources reg2 allocs) := by
  refine ⟨allocate_inv registry event hinv hnd, ?_⟩
  intro allocs reg2 heq
  have h1 : (allocate registry event).1 = true := by rw [heq]
  have hres := allocate_release_restore registry event hinv hnd h1
  rw [heq] at hres
  rw [show releaseResources reg2 allocs = registry from hres]
  exact hinv

theorem spec_C2_witness :
    capacityInvariant (allocate fleetAB eventReq120).2.2 ∧
    capacityInvariant (releaseResources fleetABAfter [("A", 100), ("B", 20)]) := by
  obtain ⟨h1, h2⟩ := spec_C2 fleetAB eventReq120 (by decide) (by decide) (by decide)
  exact ⟨h1, h2 [("A", 100), ("B", 20)] fleetABAfter eval_allocate_120⟩

/-- C3: whenever the units with positive available capacity can cover a
positive requirement, allocation succeeds, the candidate walk is in
descending order of available capacity, every recorded amount is positive
and bounded by its candidate's available capacity, and the amounts sum to
exactly the requirement; in the [100, 50] fleet with requirement 120 the
walk takes 100 from A and 20 from B, leaving 0 and 30, and release restores
100 and 50. -/
theorem spec_C3 :
    (∀ (registry : List DER) (event : Event),
      0 < event.resource_requirement →
      event.resource_requirement ≤ totalAvailableCapacity registry →
      (allocate registry event).1 = true ∧
      ((((allocate registry event).2.1).map Prod.snd).sum) = event.resource_requirement ∧
      List.Sorted availGE (findAvailableResources registry event.resource_requirement) ∧
      ∀ p ∈ (allocate registry event).2.1,
        0 < p.2 ∧ ∃ d ∈ findAvailableResources registry event.resource_requirement,
          p.1 = d.id ∧ p.2 ≤ d.available_capacity) ∧
    allocate fleetAB eventReq120 = (true, [("A", 100), ("B", 20)], fleetABAfter) ∧
    releaseResources fleetABAfter [("A", 100), ("B", 20)] = fleetAB := by
  refine ⟨?_, eval_allocate_120, eval_release_AB⟩
  intro registry event hr hle
  obtain ⟨ht, hs⟩ := allocate_succeeds registry event hr hle
  refine ⟨ht, hs, find_sorted registry _, ?_⟩
  intro p hp
  obtain ⟨_, h1, _⟩ := allocate_success_struct registry event ht
  rw [h1] at hp
  exact allocLoop_allocs_mem _ _ _ p hp

theorem spec_C3_witness :
    (allocate fleetAB eventReq120).1 = true ∧
    ((((allocate fleetAB eventReq120).2.1).map Prod.snd).sum) =
      eventReq120.resource_requirement := by
  have h := spec_C3.1 fleetAB eventReq120 (by decide) (by rw [eval_total_AB]; decide)
  exact ⟨h.1, h.2.1⟩

/-- C4 counterexample: a successful allocation that leaves a touched unit
with positive available capacity does not set its state to DISPATCHED — the
status field keeps its previous value "AVAILABLE". -/
theorem spec_C4_cex :
    (allocate statusFleet eventReq50).1 = true ∧
    ¬ (∀ d ∈ (allocate statusFleet eventReq50).2.2,
        0 < d.available_capacity → d.status = "DISPATCHED") := by
  rw [eval_allocate_50]
  refine ⟨rfl, ?_⟩
  intro hall
  have h := hall ⟨"A", 100, 50, "AVAILABLE", "locA"⟩ (List.mem_cons_self _ _) (by decide)
  exact absurd h (by decide)

/-- C4 (amended): the code implements no DER state machine —
`_allocate_resources` (through `process_event` and on a raw candidate list)
and `_release_resources` never change any DER's status field. -/
theorem spec_C4 (registry cands : List DER) (event : Event)
    (allocs : List (String × ℚ)) :
    ((allocate registry event).2.2).map DER.status = registry.map DER.status ∧
    ((allocateResources event registry cands).2.2).map DER.status =
      registry.map DER.status ∧
    (releaseResources registry allocs).map DER.status = registry.map DER.status :=
  ⟨allocate_map_status registry event, allocateResources_map_status event registry cands,
    releaseAll_map_status allocs registry⟩

/-- C5 counterexample: a unit whose status is "OFFLINE" but whose available
capacity is positive is selected as an allocation candidate and has capacity
deducted. -/
theorem spec_C5_cex :
    (¬ ∀ d ∈ findAvailableResources offlineFleet 5, d.status ≠ "OFFLINE") ∧
    (allocate offlineFleet eventReq5).2.2 = [⟨"F", 100, 5, "OFFLINE", "locF"⟩] := by
  constructor
  · intro hall
    have h := hall ⟨"F", 100, 10, "OFFLINE", "locF"⟩
      (by rw [eval_find_off]; exact List.mem_cons_self _ _)
    exact h rfl
  · rw [eval_allocate_off]

/-- C5 (amended): candidate selection ignores the status field entirely:
whenever the aggregate check passes, a unit is a candidate exactly when its
available capacity is positive, whatever its status (OFFLINE included). -/
theorem spec_C5 (registry : List DER) (required : ℚ)
    (h : required ≤ totalAvailableCapacity registry) (d : DER) :
    d ∈ findAvailableResources registry required ↔
      d ∈ registry ∧ 0 < d.available_capacity :=
  find_mem registry required h d

theorem spec_C5_witness :
    (⟨"F", 100, 10, "OFFLINE", "locF"⟩ : DER) ∈ findAvailableResources offlineFleet 5 :=
  (spec_C5 offlineFleet 5 (by norm_num [totalAvailableCapacity, offlineFleet]) _).mpr
    ⟨by decide, by decide⟩

/-- C6: on a replenishment tick every non-OFFLINE unit gains the configured
amount, clamped to its total capacity, and its state becomes AVAILABLE when
the result is positive; a tick of 10 on a DEPLETED unit (0 of 50) yields 10
and state AVAILABLE (spec-modelled: no replenishment code exists in src). -/
theorem spec_C6 :
    (∀ (amount : ℚ) (ders : List DER),
      (replenishTick amount ders).length = ders.length) ∧
    (∀ (amount : ℚ) (ders : List DER) (i : ℕ) (hi : i < ders.length)
        (hi2 : i < (replenishTick amount ders).length),
      (ders.get ⟨i, hi⟩).status ≠ "OFFLINE" →
      (replenishTick amount ders).get ⟨i, hi2⟩ =
        { ders.get ⟨i, hi⟩ with
          available_capacity := min ((ders.get ⟨i, hi⟩).available_capacity + amount)
            (ders.get ⟨i, hi⟩).capacity,
          status := if 0 < min ((ders.get ⟨i, hi⟩).available_capacity + amount)
              (ders.get ⟨i, hi⟩).capacity then "AVAILABLE"
            else (ders.get ⟨i, hi⟩).status }) ∧
    replenishTick 10 [depletedUnit] = [⟨"u", 50, 10, "AVAILABLE", "l"⟩] :=
  ⟨replenishTick_length, replenishTick_get, eval_replenish⟩

theorem spec_C6_witness :
    (replenishTick 10 [depletedUnit]).get ⟨0, by decide⟩ =
      { depletedUnit with
        available_capacity := min (depletedUnit.available_capacity + 10)
          depletedUnit.capacity,
        status := if 0 < min (depletedUnit.available_capacity + 10) depletedUnit.capacity
          then "AVAILABLE" else depletedUnit.status } :=
  spec_C6.2.1 10 [depletedUnit] 0 (by decide) (by decide) (by decide)

/-- C7: if the execution-simulation step raises after a successful
allocation, `process_event` releases the held allocation — every deducted
amount is credited back, returning the registry to its pre-call state — and
the event is reported failed. -/
theorem spec_C7 (registry : List DER) (event : Event)
    (hinv : capacityInvariant registry) (hnd : idsNodup registry)
    (hsucc : (allocate registry event).1 = true) :
    processEvent registry event ExecOutcome.exc = (false, registry) :=
  processEvent_exc_restore registry event hinv hnd hsucc

theorem spec_C7_witness :
    processEvent fleetAB eventReq120 ExecOutcome.exc = (false, fleetAB) :=
  spec_C7 fleetAB eventReq120 (by decide) (by decide) (by rw [eval_allocate_120])

/-- C8 counterexample: an allocate call with a negative resource requirement
does not fail and raises no error — it reports success with an empty
allocation list. -/
theorem spec_C8_cex :
    (allocate fleetAB eventNeg).1 = true ∧
    ¬ (allocate fleetAB eventNeg).1 = false ∧
    (allocate fleetAB eventNeg).2.1 = [] := by
  rw [eval_allocate_neg]
  exact ⟨rfl, by simp, rfl⟩

/-- C8 (amended): a negative requirement produces no error and no mutation:
no AllocationEngineError exists in the code; the allocation list is empty,
the registry is unchanged, and the call reports success exactly when some
unit has positive available capacity. -/
theorem spec_C8 (registry : List DER) (event : Event)
    (hneg : event.resource_requirement < 0) :
    (allocate registry event).2.2 = registry ∧
    (allocate registry event).2.1 = [] ∧
    ((allocate registry event).1 = true ↔ ∃ d ∈ registry, 0 < d.available_capacity) :=
  allocate_neg registry event hneg

theorem spec_C8_witness :
    (allocate fleetAB eventNeg).2.2 = fleetAB ∧
    (allocate fleetAB eventNeg).2.1 = [] ∧
    ((allocate fleetAB eventNeg).1 = true ↔ ∃ d ∈ fleetAB, 0 < d.available_capacity) :=
  spec_C8 fleetAB eventNeg (by decide)

/-- C9 counterexample: two events of the same priority class where the
first-enqueued event has the later creation timestamp are dequeued in
timestamp order, so the event enqueued second comes out first — enqueue
(FIFO) order is not preserved. -/
theorem spec_C9_cex :
    drain (queuePut (queuePut [] evA) evB) = [evB, evA] ∧
    drain (queuePut (queuePut [] evA) evB) ≠ [evA, evB] := by
  constructor
  · decide
  · decide

/-- C9 (amended): the per-class queue is keyed by the events' creation
timestamps, so dequeue order follows timestamps, not enqueue order: when the
enqueued entries' timestamps strictly increase in enqueue order, draining
returns them in enqueue (FIFO) order; otherwise an earlier-timestamped event
enqueued later is dequeued first. -/
theorem spec_C9 (queue : List (Nat × Event))
    (h : queue.Pairwise fun a b => a.1 < b.1) :
    drain queue = queue.map Prod.snd :=
  drain_sorted queue h

theorem spec_C9_witness :
    drain [(1, evB), (2, evA)] = [(1, evB), (2, evA)].map Prod.snd :=
  spec_C9 [(1, evB), (2, evA)] (by decide)

/-- C10: after any `_release_resources` call, every unit named in the
released allocation list has available capacity at most its total capacity,
for any prior registry state — each credit is clamped, so even repeated
releases cannot push a unit above capacity. -/
theorem spec_C10 (registry : List DER) (allocs : List (String × ℚ))
    (u : String) (a : ℚ) (hu : (u, a) ∈ allocs) :
    ∀ d ∈ releaseResources registry allocs, d.id = u →
      d.available_capacity ≤ d.capacity := by
  have hmem : u ∈ allocs.map Prod.fst := List.mem_map.mpr ⟨(u, a), hu, rfl⟩
  exact releaseAll_cap allocs registry u hmem

theorem spec_C10_witness :
    releaseResources overFullFleet [("X", 10)] = [⟨"X", 50, 50, "online", "locX"⟩] ∧
    (⟨"X", 50, 50, "online", "locX"⟩ : DER).available_capacity ≤
      (⟨"X", 50, 50, "online", "locX"⟩ : DER).capacity := by
  refine ⟨eval_release_over, ?_⟩
  refine spec_C10 overFullFleet [("X", 10)] "X" 10 (by decide) _ ?_ (by decide)
  rw [eval_release_over]
  exact List.mem_cons_self _ _
